import Mathlib

/-!
Verification of the ImageFusion pipeline sources against their
natural-language specification.

Shallow embedding conventions used throughout this development:

* C machine integers are embedded as Nat or Int; where an unsigned
  wrap-around can actually occur and matters, the reduction modulo
  2 ^ 32 or 2 ^ 64 is written explicitly.
* float arithmetic on integral data is idealized as exact arithmetic
  over Nat, Int or Rat; every place where this idealization is load
  bearing is marked in the doc comment of the definition.
* arrays are embedded as lists (the prefix actually touched by the C
  function) or as total functions from indices.
-/

namespace ImageFusion

/-! ## Raw IR frame recombination (src/RDC.c, RecombineRawFrame)

The scalar path of RecombineRawFrame (the branch compiled when
ARM NEON is unavailable, and also the commented reference branch
inside the NEON section) runs, for each pixel i:

  low8bits  = 0x00FF & src[2 i];
  hig8bits  = src[2 i + 1] & 0x7F;
  dst[i]    = (hig8bits << 8) + low8bits;

Bytes are embedded as naturals; the masks appear as explicit mod 256
and mod 128.  An odd trailing byte is dropped (nPixels = len / 2). -/

/-- Scalar recombination of the raw IR byte stream, one 16-bit output per
two input bytes, exactly as src/RDC.c lines 434-438 computes it. -/
def RecombineRawFrame : List ℕ → List ℕ
  | b0 :: b1 :: rest => ((b1 % 128) * 256 + b0 % 256) :: RecombineRawFrame rest
  | _ => []

/-- C1: evaluation of the code at the failing input.  For the two-byte raw
frame (byte0, byte1) = (0x80, 0x7F) the code produces 0x7F80 = 32640,
which exceeds the 14-bit bound 0x3FFF claimed by the spec, and differs
from the value 16256 demanded by the claimed recombination formula
((byte1 and 0x7F) shifted left 7) or (byte0 and 0x7F). -/
theorem RecombineRawFrame_code_bug_eval :
    RecombineRawFrame [128, 127] = [32640] ∧
    ¬ (32640 ≤ 0x3FFF) ∧
    (127 % 128) * 128 + 128 % 128 = 16256 ∧ (32640 : ℕ) ≠ 16256 := by
  refine ⟨rfl, by decide, by decide, by decide⟩

/-! ## Registration init (src/registration.c, rm_regist_init)

rm_regist_init returns -1 exactly when npoints < MIN_POINT_SIZE and 0
otherwise; when the two interpolation-table files are absent it falls
into the regeneration branch and still returns 0.  cal_affine_matrix
consumes the control-point buffer as npoints / 2 pairs of four ints, so
npoints counts single points and one correspondence pair costs two of
them (fusion.c allocates npoints * 2 ints, matching exactly). -/

/-- Minimum control point number (src/registration.c line 31). -/
def MIN_POINT_SIZE : ℤ := 6

/-- Return value of rm_regist_init as a function of npoints: the guard at
src/registration.c lines 105-107 is the only early return; every path
after it (tables present or regenerated) falls through to return 0. -/
def rm_regist_init_ret (npoints : ℤ) : ℤ :=
  if npoints < MIN_POINT_SIZE then -1 else 0

/-- C9: with npoints = 2 * pairs (two points per correspondence pair, the
unit under which cal_affine_matrix reads npoints / 2 pairs of 4 ints),
rm_regist_init succeeds whenever at least 3 pairs are supplied -- in
particular whenever at least 3 non-collinear pairs are supplied -- and it
returns -1 only when fewer than 3 pairs (hence fewer than 3 non-collinear
pairs, noncol being their count) are available.  Collinearity itself is
never inspected by the code. -/
theorem rm_regist_init_three_pairs (pairs noncol : ℕ) (hle : noncol ≤ pairs) :
    (3 ≤ noncol → rm_regist_init_ret (2 * pairs) = 0) ∧
    (rm_regist_init_ret (2 * pairs) = -1 → noncol < 3) := by
  unfold rm_regist_init_ret MIN_POINT_SIZE
  constructor
  · intro h
    rw [if_neg]
    omega
  · intro h
    by_contra hc
    rw [if_neg (by omega)] at h
    exact absurd h (by decide)

/-- Witness for C9 at the concrete input pairs = noncol = 3. -/
theorem rm_regist_init_three_pairs_witness :
    rm_regist_init_ret (2 * 3) = 0 :=
  (rm_regist_init_three_pairs 3 3 (by decide)).1 (by decide)

/-! ## fusion_init control-point data flow (src/fusion.c)

fusion_init touches control_points.txt exactly once, through
get_text_lines, which opens the file and counts newline characters; the
contrl_points buffer is malloc-ed (npoints * 2 ints) and never written
before being handed to rm_regist_init and, inside it, to
cal_affine_matrix.  The uninitialized heap contents are embedded as an
explicit parameter (garbage). -/

/-- Number of text lines as counted by get_text_lines (src/fusion.c lines
721-743): -1 when the file cannot be opened, otherwise the number of
newline characters seen before EOF. -/
def get_text_lines (file : Option (List Char)) : ℤ :=
  match file with
  | none => -1
  | some cs => (cs.countP (fun c => c == '\n') : ℤ)

/-- Contribution of one control-point pair to the augmented matrix abc_mat
of cal_affine_matrix (src/registration.c lines 349-360); float
accumulation of integer products is idealized as exact integers. -/
def abc_terms (x1 y1 x2 y2 : ℤ) : Fin 12 → ℤ :=
  ![x1 * x1, x1 * y1, x1, x1 * x2, x1 * y1, y1 * y1, y1, x2 * y1, x1, y1, 1, x2]

/-- Contribution of one control-point pair to the augmented matrix def_mat
of cal_affine_matrix (src/registration.c lines 362-373). -/
def def_terms (x1 y1 x2 y2 : ℤ) : Fin 12 → ℤ :=
  ![x1 * x1, x1 * y1, x1, x1 * y2, x1 * y1, y1 * y1, y1, y1 * y2, x1, y1, 1, y2]

/-- Augmented matrices built by cal_affine_matrix from the control-point
buffer: pairs = npoints / 2, pair i being the four ints at offsets
4 i .. 4 i + 3 of the buffer. -/
def cal_affine_augmented (cp : ℕ → ℤ) (npoints : ℕ) : (Fin 12 → ℤ) × (Fin 12 → ℤ) :=
  (fun j => ∑ i in Finset.range (npoints / 2),
      abc_terms (cp (4 * i)) (cp (4 * i + 1)) (cp (4 * i + 2)) (cp (4 * i + 3)) j,
   fun j => ∑ i in Finset.range (npoints / 2),
      def_terms (cp (4 * i)) (cp (4 * i + 1)) (cp (4 * i + 2)) (cp (4 * i + 3)) j)

/-- Input supplied to the affine fit when fusion_init regenerates the warp
tables: npoints comes from get_text_lines on control_points.txt, the
buffer contents are the uninitialized heap garbage, and no fit happens
at all when rm_regist_init rejects npoints < MIN_POINT_SIZE. -/
def fusion_init_affine_input (file : Option (List Char)) (garbage : ℕ → ℤ) :
    Option ((Fin 12 → ℤ) × (Fin 12 → ℤ)) :=
  let npoints := get_text_lines file
  if npoints < MIN_POINT_SIZE then none
  else some (cal_affine_augmented garbage npoints.toNat)

/-- C10: the data supplied to the affine fit during fusion_init depends on
control_points.txt only through its newline count; two file contents
with the same line count (same heap garbage) give identical augmented
matrices, hence identical regenerated warp tables downstream. -/
theorem fusion_init_affine_input_noninterference (c1 c2 : List Char) (g : ℕ → ℤ)
    (h : c1.countP (fun c => c == '\n') = c2.countP (fun c => c == '\n')) :
    fusion_init_affine_input (some c1) g = fusion_init_affine_input (some c2) g := by
  simp only [fusion_init_affine_input, get_text_lines]
  rw [h]

/-- Witness for C10: two control-point files whose coordinate values differ
but whose line counts agree. -/
theorem fusion_init_affine_input_noninterference_witness :
    fusion_init_affine_input
      (some ['1', ' ', '2', ' ', '3', ' ', '4', '\n']) (fun _ => 0) =
    fusion_init_affine_input
      (some ['9', ' ', '8', ' ', '7', ' ', '6', '\n']) (fun _ => 0) :=
  fusion_init_affine_input_noninterference _ _ (fun _ => 0) (by decide)

/-! ## Bright-feature suppression scan (src/fusion.c, suppress_bright_feature)

The downward histogram scan at src/fusion.c lines 977-987:

  for (i = ngls - 1; i >= 0; i--) \x7b
      if (!hist[i]) continue;
      bpc += hist[i];
      sum += hist[i] * i;
      if (bpc > bpct) break;
  \x7d

with unsigned i, so the guard i >= 0 never fails and the only exits are
the break, or -- when i-- runs at i == 0 -- a wrap of i to 0xFFFFFFFF
followed by an out-of-bounds hist read.  The embedding returns some
(break index, bpc at break) for the break exit and none for the wrap;
the float statistic sum does not influence control flow and is omitted.
bpct is the value (unsigned)(bpr * npixels) computed by the caller. -/

/-- Downward scan of suppress_bright_feature starting at bin i with
accumulated brightest-pixel count bpc; none models the unsigned wrap
past bin 0. -/
def sbf_scan (hist : ℕ → ℕ) (bpct : ℕ) : ℕ → ℕ → Option (ℕ × ℕ)
  | i, bpc =>
    if hist i = 0 then
      match i with
      | 0 => none
      | j + 1 => sbf_scan hist bpct j bpc
    else
      if bpct < bpc + hist i then some (i, bpc + hist i)
      else
        match i with
        | 0 => none
        | j + 1 => sbf_scan hist bpct j (bpc + hist i)

/-- Key induction for the scan: if the count still to come in bins 0..i
together with the count accumulated so far exceeds the threshold, and the
threshold has not been passed yet, the scan breaks at some bin in 0..i. -/
theorem sbf_scan_breaks (hist : ℕ → ℕ) (bpct : ℕ) :
    ∀ i bpc, bpc ≤ bpct → bpct < bpc + ∑ j in Finset.range (i + 1), hist j →
    ∃ m b, sbf_scan hist bpct i bpc = some (m, b) ∧ m ≤ i ∧ bpct < b := by
  intro i
  induction i with
  | zero =>
    intro bpc h1 h2
    rw [Finset.sum_range_one] at h2
    have hz : hist 0 ≠ 0 := by omega
    refine ⟨0, bpc + hist 0, ?_, le_refl 0, by omega⟩
    unfold sbf_scan
    rw [if_neg hz, if_pos (by omega)]
  | succ n ih =>
    intro bpc h1 h2
    rw [Finset.sum_range_succ] at h2
    by_cases hz : hist (n + 1) = 0
    · obtain ⟨m, b, hs, hm, hb⟩ := ih bpc h1 (by omega)
      refine ⟨m, b, ?_, by omega, hb⟩
      unfold sbf_scan
      rw [if_pos hz]
      exact hs
    · by_cases hbreak : bpct < bpc + hist (n + 1)
      · refine ⟨n + 1, bpc + hist (n + 1), ?_, le_refl _, hbreak⟩
        unfold sbf_scan
        rw [if_neg hz, if_pos hbreak]
      · obtain ⟨m, b, hs, hm, hb⟩ := ih (bpc + hist (n + 1)) (by omega) (by omega)
        refine ⟨m, b, ?_, by omega, hb⟩
        unfold sbf_scan
        rw [if_neg hz, if_neg hbreak]
        exact hs

/-- C2: for every frame with at least one pixel the scan exits through the
break at some bin index in 0..65535 with bpc above the threshold; the
unsigned loop index never wraps past 0 (the result is never none) and
hist is only ever read at indices below ngls = 65536.  The histogram of
the 16-bit unsuppressed fusion image sums to npixels over its 65536
bins, and the caller threshold bpct = (unsigned)(0.001f * npixels) is
below npixels whenever npixels is at least 1. -/
theorem suppress_scan_safe (hist : ℕ → ℕ) (npixels bpct : ℕ)
    (hsum : ∑ j in Finset.range 65536, hist j = npixels)
    (hbp : bpct < npixels) :
    ∃ m bpc, sbf_scan hist bpct 65535 0 = some (m, bpc) ∧ m ≤ 65535 ∧ bpct < bpc :=
  sbf_scan_breaks hist bpct 65535 0 (Nat.zero_le _) (by rw [hsum]; omega)

/-- Witness for C2: a one-pixel frame whose single sample sits in the top
bin, with threshold 0. -/
theorem suppress_scan_safe_witness :
    ∃ m bpc, sbf_scan (fun j => if j = 65535 then 1 else 0) 0 65535 0 = some (m, bpc) ∧
      m ≤ 65535 ∧ 0 < bpc :=
  suppress_scan_safe (fun j => if j = 65535 then 1 else 0) 1 0 (by simp) (by decide)

/-! ## Bounded byte ring (src/fifo.c)

The counters in and out are 32-bit unsigned; the struct state is
embedded with both counters kept below 2 ^ 32 and every counter update
reduced mod 2 ^ 32.  __fifo_put computes the free space as
size - in + out in unsigned arithmetic and transfers min(requested,
free) bytes (the two memcpy calls copy exactly that many bytes);
__fifo_get symmetrically, and the fifo_get wrapper collapses both
counters to 0 when the ring drains. -/

/-- Modulus of the 32-bit unsigned counters. -/
def U32 : ℕ := 4294967296

/-- State of one ring: the two counters of struct tagFifo. -/
structure FifoState where
  inCnt : ℕ
  outCnt : ℕ
  deriving DecidableEq, Repr

/-- Free space as __fifo_put computes it: size - in + out in unsigned
32-bit arithmetic (src/fifo.c line 242). -/
def fifo_free (size : ℕ) (s : FifoState) : ℕ :=
  (size + (U32 - s.inCnt) + s.outCnt) % U32

/-- Filling bytes as __fifo_len and __fifo_get compute them: in - out in
unsigned 32-bit arithmetic (src/fifo.c lines 226 and 266). -/
def fifo_used (s : FifoState) : ℕ :=
  (s.inCnt + (U32 - s.outCnt)) % U32

/-- One __fifo_put of n requested bytes: the returned length is
min(n, free) and in advances by exactly that many bytes. -/
def fifo_put_op (size : ℕ) (s : FifoState) (n : ℕ) : FifoState × ℕ :=
  let wr := min n (fifo_free size s)
  ({ s with inCnt := (s.inCnt + wr) % U32 }, wr)

/-- One fifo_get of n requested bytes: __fifo_get reads min(n, used)
bytes advancing out, then the wrapper resets both counters to 0 when
in == out (src/fifo.c lines 185-197). -/
def fifo_get_op (s : FifoState) (n : ℕ) : FifoState × ℕ :=
  let rd := min n (fifo_used s)
  let s1 : FifoState := { s with outCnt := (s.outCnt + rd) % U32 }
  if s1.inCnt = s1.outCnt then ({ inCnt := 0, outCnt := 0 }, rd) else (s1, rd)

/-- Power-of-two test of the is_power_of_2 macro (src/fifo.c line 24). -/
def is_power_of_2 (x : ℕ) : Bool :=
  x ≠ 0 && (x &&& (x - 1)) = 0

/-- Rounding of roundup_power_of_2 (src/fifo.c lines 203-218): position
ends as the bit length of a, so the result is 1 shifted left by it.
Faithful for a below 2 ^ 31, which covers every ring size the pipeline
allocates. -/
def roundup_power_of_2 (a : ℕ) : ℕ :=
  if a = 0 then 0 else 2 ^ (Nat.log2 a + 1)

/-- Ring capacity chosen by fifo_alloc (src/fifo.c lines 58-60). -/
def fifo_alloc_size (size : ℕ) : ℕ :=
  if is_power_of_2 size then size else roundup_power_of_2 size

/-- States reachable from the fresh ring by put and get operations that
each transfer exactly R bytes. -/
inductive FifoReach (size R : ℕ) : FifoState → Prop where
  | init : FifoReach size R ⟨0, 0⟩
  | put (s : FifoState) (h : FifoReach size R s)
      (hfull : (fifo_put_op size s R).2 = R) : FifoReach size R (fifo_put_op size s R).1
  | get (s : FifoState) (h : FifoReach size R s)
      (hfull : (fifo_get_op s R).2 = R) : FifoReach size R (fifo_get_op s R).1

/-- Reachable-state invariant: both counters are reduced, and the unsigned
difference in - out is a multiple of R no larger than the capacity. -/
def FifoInv (size R : ℕ) (s : FifoState) : Prop :=
  s.inCnt < U32 ∧ s.outCnt < U32 ∧ ∃ d, R ∣ d ∧ d ≤ size ∧ fifo_used s = d

theorem fifo_reach_inv (size R : ℕ) (hR : 0 < R) (hsize : size < U32)
    (s : FifoState) (hreach : FifoReach size R s) : FifoInv size R s := by
  have hsz : size < 4294967296 := by simpa [U32] using hsize
  induction hreach with
  | init =>
    refine ⟨by norm_num [U32], by norm_num [U32], 0, dvd_zero R, Nat.zero_le _, ?_⟩
    simp [fifo_used, U32]
  | put t ht hfull ih =>
    obtain ⟨hi, ho, d, hdvd, hdle, hused⟩ := ih
    simp only [U32] at hi ho
    simp only [fifo_put_op, fifo_free, FifoInv, fifo_used, U32] at hfull hused ⊢
    have hfree : (size + (4294967296 - t.inCnt) + t.outCnt) % 4294967296 = size - d := by
      omega
    rw [hfree] at hfull ⊢
    have hmin : min R (size - d) = R := hfull
    rw [hmin]
    exact ⟨by omega, by omega, d + R, hdvd.add (dvd_refl R), by omega, by omega⟩
  | get t ht hfull ih =>
    obtain ⟨hi, ho, d, hdvd, hdle, hused⟩ := ih
    simp only [U32] at hi ho
    simp only [fifo_used, U32] at hused
    simp only [fifo_get_op, fifo_used, U32] at hfull
    have hrd : min R ((t.inCnt + (4294967296 - t.outCnt)) % 4294967296) = R := by
      split at hfull <;> simpa using hfull
    have hRd : R ≤ d := by
      rw [hused] at hrd
      omega
    have hres : (fifo_get_op t R).1 =
        if t.inCnt = (t.outCnt + R) % 4294967296 then (⟨0, 0⟩ : FifoState)
        else { t with outCnt := (t.outCnt + R) % 4294967296 } := by
      simp only [fifo_get_op, fifo_used, U32, hrd]
      split <;> rfl
    rw [hres]
    by_cases hc : t.inCnt = (t.outCnt + R) % 4294967296
    · rw [if_pos hc]
      refine ⟨by norm_num [U32], by norm_num [U32], 0, dvd_zero R, Nat.zero_le _, ?_⟩
      simp [fifo_used, U32]
    · rw [if_neg hc]
      refine ⟨by simpa [U32] using hi, by simp only [U32]; omega, d - R,
        Nat.dvd_sub' hdvd (dvd_refl R), by omega, ?_⟩
      simp only [fifo_used, U32]
      omega

/-- C3: on a ring whose capacity comes out of fifo_alloc as a multiple of
the record size R, in every state reachable by exact-R transfers a
fifo_put of R bytes transfers either the whole record (returns R) or
nothing (returns 0) -- never a partial record. -/
theorem fifo_put_all_or_nothing (sz R cap : ℕ) (hcap : cap = fifo_alloc_size sz)
    (hR : 0 < R) (hdvd : R ∣ cap) (hlt : cap < U32)
    (s : FifoState) (hreach : FifoReach cap R s) :
    (fifo_put_op cap s R).2 = R ∨ (fifo_put_op cap s R).2 = 0 := by
  obtain ⟨hi, ho, d, hddvd, hdle, hused⟩ := fifo_reach_inv cap R hR hlt s hreach
  have hsz : cap < 4294967296 := by simpa [U32] using hlt
  simp only [U32] at hi ho
  simp only [fifo_put_op, fifo_free, fifo_used, U32] at hused ⊢
  have hfree : (cap + (4294967296 - s.inCnt) + s.outCnt) % 4294967296 = cap - d := by
    omega
  rw [hfree]
  rcases Nat.eq_zero_or_pos (cap - d) with hz | hp
  · right
    simp [hz]
  · left
    have hfdvd : R ∣ cap - d := Nat.dvd_sub' hdvd hddvd
    have := Nat.le_of_dvd hp hfdvd
    omega

/-- Witness for C3: capacity 4 (fifo_alloc keeps the power of two 4),
record size 2, at the fresh ring. -/
theorem fifo_put_all_or_nothing_witness :
    (fifo_put_op 4 ⟨0, 0⟩ 2).2 = 2 ∨ (fifo_put_op 4 ⟨0, 0⟩ 2).2 = 0 :=
  fifo_put_all_or_nothing 4 2 4 (by decide) (by decide) (by decide)
    (by norm_num [U32]) ⟨0, 0⟩ FifoReach.init

/-! ## Quadtree decomposition (src/quadtree.c)

split_blob scans the quadrant for min and max pixel value, records a
node, and -- when the quadrant is wider than minbw, taller than minbh
and its gray range above mingr -- splits at the midpoints into TL, TR,
LL, LR and recurses.  The pointer insertion machinery (add_node
descending from the tree root via which_child_of_father) reconstructs
exactly this recursion tree for the quadrants produced here, since
every child quadrant lies in exactly one geometric quadrant of each of
its ancestors and siblings are produced in TL, TR, LL, LR order; the
tree is therefore embedded directly as the recursion tree.
gtree_get_leafnode then lists the blobs of childless nodes in TL, TR,
LL, LR depth-first order.  The decomposition parameters are the ones
bkgreconst_init hands to qtree_init (src/bkgreconstruct.c lines
114-116). -/

/-- Minimum blob width (src/bkgreconstruct.c line 114). -/
def MIN_BLOB_W : ℕ := 12

/-- Minimum blob height (src/bkgreconstruct.c line 115). -/
def MIN_BLOB_H : ℕ := 9

/-- Minimum gray range (src/bkgreconstruct.c line 116). -/
def MIN_GRAY_RANGE : ℕ := 78

/-- Half-open image rectangle, fields as in struct Quadrant. -/
structure Quadrant where
  top : ℕ
  left : ℕ
  bottom : ℕ
  right : ℕ
  deriving DecidableEq, Repr

/-- Quadrant plus gray range, as in struct Blob. -/
structure Blob where
  quad : Quadrant
  range : ℕ
  deriving DecidableEq, Repr

/-- Pixel scan of split_blob (src/quadtree.c lines 190-201): running
minimum and maximum over the quadrant, starting from (0xFF, 0). -/
def quadMinMax (image : ℕ → ℕ → ℕ) (q : Quadrant) : ℕ × ℕ :=
  (List.range (q.bottom - q.top)).foldl (fun acc dy =>
    (List.range (q.right - q.left)).foldl (fun acc2 dx =>
      let v := image (q.top + dy) (q.left + dx)
      (if v < acc2.1 then v else acc2.1, if acc2.2 < v then v else acc2.2)) acc)
    (255, 0)

/-- Gray range maxval - minval of a quadrant (src/quadtree.c line 205).
For every nonempty quadrant of an 8-bit image the maximum dominates the
minimum, so the truncated natural subtraction agrees with the unsigned
C subtraction; empty quadrants are never scanned by the reachable
recursion. -/
def quadRange (image : ℕ → ℕ → ℕ) (q : Quadrant) : ℕ :=
  (quadMinMax image q).2 - (quadMinMax image q).1

/-- Termination measure of the split recursion. -/
def quadSize (q : Quadrant) : ℕ :=
  (q.bottom - q.top) + (q.right - q.left)

/-- Quadtree node: a blob, and either no children or the four children in
TL, TR, LL, LR order.  The C nodes reachable from qtree_decompose have
either zero or four children. -/
inductive QNode where
  | mk (blob : Blob) (children : Option (QNode × QNode × QNode × QNode)) : QNode

/-- Recursive blob split of split_blob (src/quadtree.c lines 170-253):
the node keeps the quadrant and its range; when the split condition
bw > minbw, bh > minbh, range > mingr holds the quadrant splits at
((top+bottom)/2, (left+right)/2). -/
def split_blob (image : ℕ → ℕ → ℕ) (q : Quadrant) : QNode :=
  if h : MIN_BLOB_W < q.right - q.left ∧ MIN_BLOB_H < q.bottom - q.top ∧
      MIN_GRAY_RANGE < quadRange image q then
    QNode.mk ⟨q, quadRange image q⟩
      (some (split_blob image ⟨q.top, q.left, (q.top + q.bottom) / 2, (q.left + q.right) / 2⟩,
             split_blob image ⟨q.top, (q.left + q.right) / 2, (q.top + q.bottom) / 2, q.right⟩,
             split_blob image ⟨(q.top + q.bottom) / 2, q.left, q.bottom, (q.left + q.right) / 2⟩,
             split_blob image ⟨(q.top + q.bottom) / 2, (q.left + q.right) / 2, q.bottom, q.right⟩))
  else
    QNode.mk ⟨q, quadRange image q⟩ none
termination_by quadSize q
decreasing_by
  all_goals simp only [quadSize, MIN_BLOB_W, MIN_BLOB_H] at h ⊢
  all_goals omega

/-- Whole-image decomposition qtree_decompose (src/quadtree.c lines
113-130): the root quadrant is (0, 0, height, width). -/
def qtree_decompose (image : ℕ → ℕ → ℕ) (width height : ℕ) : QNode :=
  split_blob image ⟨0, 0, height, width⟩

/-- Leaf collection of get_leafnode (src/quadtree.c lines 386-419): a node
with no children contributes its blob; otherwise the four subtrees are
visited in TL, TR, LL, LR order. -/
def get_leafnode : QNode → List Blob
  | QNode.mk b none => [b]
  | QNode.mk _ (some (c0, c1, c2, c3)) =>
      get_leafnode c0 ++ get_leafnode c1 ++ get_leafnode c2 ++ get_leafnode c3

/-- Pixel membership in a half-open quadrant. -/
def quadMem (q : Quadrant) (y x : ℕ) : Prop :=
  q.top ≤ y ∧ y < q.bottom ∧ q.left ≤ x ∧ x < q.right

/-- Every leaf blob of the split of q stays inside q. -/
theorem get_leafnode_subset (image : ℕ → ℕ → ℕ) :
    ∀ n q, quadSize q = n →
    ∀ b ∈ get_leafnode (split_blob image q), ∀ y x, quadMem b.quad y x → quadMem q y x := by
  intro n
  induction n using Nat.strong_induction_on with
  | _ n ih =>
    intro q hn b hb y x hmem
    rw [split_blob] at hb
    split at hb
    case isTrue h =>
      simp only [MIN_BLOB_W, MIN_BLOB_H] at h
      simp only [get_leafnode, List.mem_append] at hb
      have hq : quadSize q = n := hn
      simp only [quadSize] at hq
      rcases hb with ((hb | hb) | hb) | hb
      all_goals
        refine ?_
      · have hm := ih _ (by simp only [quadSize]; omega) _ rfl b hb y x hmem
        simp only [quadMem] at hm ⊢
        omega
      · have hm := ih _ (by simp only [quadSize]; omega) _ rfl b hb y x hmem
        simp only [quadMem] at hm ⊢
        omega
      · have hm := ih _ (by simp only [quadSize]; omega) _ rfl b hb y x hmem
        simp only [quadMem] at hm ⊢
        omega
      · have hm := ih _ (by simp only [quadSize]; omega) _ rfl b hb y x hmem
        simp only [quadMem] at hm ⊢
        omega
    case isFalse h =>
      simp only [get_leafnode, List.mem_singleton] at hb
      subst hb
      exact hmem

/-- Every pixel of q is covered by some leaf blob of the split of q. -/
theorem get_leafnode_cover (image : ℕ → ℕ → ℕ) :
    ∀ n q, quadSize q = n →
    ∀ y x, quadMem q y x → ∃ b ∈ get_leafnode (split_blob image q), quadMem b.quad y x := by
  intro n
  induction n using Nat.strong_induction_on with
  | _ n ih =>
    intro q hn y x hmem
    rw [split_blob]
    split
    case isTrue h =>
      simp only [MIN_BLOB_W, MIN_BLOB_H] at h
      have hq : quadSize q = n := hn
      simp only [quadSize] at hq
      simp only [quadMem] at hmem
      simp only [get_leafnode, List.mem_append]
      by_cases hy : y < (q.top + q.bottom) / 2 <;> by_cases hx : x < (q.left + q.right) / 2
      · obtain ⟨b, hb, hbm⟩ := ih _ (by simp only [quadSize]; omega)
          (⟨q.top, q.left, (q.top + q.bottom) / 2, (q.left + q.right) / 2⟩ : Quadrant) rfl y x
          (by simp only [quadMem]; omega)
        exact ⟨b, by tauto, hbm⟩
      · obtain ⟨b, hb, hbm⟩ := ih _ (by simp only [quadSize]; omega)
          (⟨q.top, (q.left + q.right) / 2, (q.top + q.bottom) / 2, q.right⟩ : Quadrant) rfl y x
          (by simp only [quadMem]; omega)
        exact ⟨b, by tauto, hbm⟩
      · obtain ⟨b, hb, hbm⟩ := ih _ (by simp only [quadSize]; omega)
          (⟨(q.top + q.bottom) / 2, q.left, q.bottom, (q.left + q.right) / 2⟩ : Quadrant) rfl y x
          (by simp only [quadMem]; omega)
        exact ⟨b, by tauto, hbm⟩
      · obtain ⟨b, hb, hbm⟩ := ih _ (by simp only [quadSize]; omega)
          (⟨(q.top + q.bottom) / 2, (q.left + q.right) / 2, q.bottom, q.right⟩ : Quadrant) rfl y x
          (by simp only [quadMem]; omega)
        exact ⟨b, by tauto, hbm⟩
    case isFalse h =>
      exact ⟨⟨q, quadRange image q⟩, by simp [get_leafnode], hmem⟩

/-- Disjointness relation on blobs: no pixel in both. -/
def blobDisjoint (b1 b2 : Blob) : Prop :=
  ∀ y x, ¬ (quadMem b1.quad y x ∧ quadMem b2.quad y x)

/-- Leaf blobs of a split have pairwise-disjoint quadrants. -/
theorem get_leafnode_pairwise (image : ℕ → ℕ → ℕ) :
    ∀ n q, quadSize q = n →
    List.Pairwise blobDisjoint (get_leafnode (split_blob image q)) := by
  intro n
  induction n using Nat.strong_induction_on with
  | _ n ih =>
    intro q hn
    rw [split_blob]
    split
    case isTrue h =>
      simp only [MIN_BLOB_W, MIN_BLOB_H] at h
      have hq : quadSize q = n := hn
      simp only [quadSize] at hq
      simp only [get_leafnode]
      have key : ∀ qa qb : Quadrant, quadSize qa < n → quadSize qb < n →
          (∀ y x, ¬ (quadMem qa y x ∧ quadMem qb y x)) →
          ∀ b1 ∈ get_leafnode (split_blob image qa),
          ∀ b2 ∈ get_leafnode (split_blob image qb), blobDisjoint b1 b2 := by
        intro qa qb _ _ hdisj b1 hb1 b2 hb2 y x hc
        exact hdisj y x ⟨get_leafnode_subset image _ qa rfl b1 hb1 y x hc.1,
          get_leafnode_subset image _ qb rfl b2 hb2 y x hc.2⟩
      rw [List.pairwise_append, List.pairwise_append, List.pairwise_append]
      simp only [List.mem_append]
      refine ⟨⟨⟨ih _ (by simp only [quadSize]; omega) _ rfl,
        ih _ (by simp only [quadSize]; omega) _ rfl, ?_⟩,
        ih _ (by simp only [quadSize]; omega) _ rfl, ?_⟩,
        ih _ (by simp only [quadSize]; omega) _ rfl, ?_⟩
      · intro b1 hb1 b2 hb2
        exact key _ _ (by simp only [quadSize]; omega) (by simp only [quadSize]; omega)
          (by intro y x hc; simp only [quadMem] at hc; omega) b1 hb1 b2 hb2
      · intro b1 hb1 b2 hb2
        rcases hb1 with hb1 | hb1
        · exact key _ _ (by simp only [quadSize]; omega) (by simp only [quadSize]; omega)
            (by intro y x hc; simp only [quadMem] at hc; omega) b1 hb1 b2 hb2
        · exact key _ _ (by simp only [quadSize]; omega) (by simp only [quadSize]; omega)
            (by intro y x hc; simp only [quadMem] at hc; omega) b1 hb1 b2 hb2
      · intro b1 hb1 b2 hb2
        rcases hb1 with (hb1 | hb1) | hb1
        · exact key _ _ (by simp only [quadSize]; omega) (by simp only [quadSize]; omega)
            (by intro y x hc; simp only [quadMem] at hc; omega) b1 hb1 b2 hb2
        · exact key _ _ (by simp only [quadSize]; omega) (by simp only [quadSize]; omega)
            (by intro y x hc; simp only [quadMem] at hc; omega) b1 hb1 b2 hb2
        · exact key _ _ (by simp only [quadSize]; omega) (by simp only [quadSize]; omega)
            (by intro y x hc; simp only [quadMem] at hc; omega) b1 hb1 b2 hb2
    case isFalse h =>
      simp [get_leafnode]

/-- C7: for every 8-bit image of width and height at least 1 the leaf
blobs returned by gtree_get_leafnode after qtree_decompose tile the
base image: a pixel (y, x) lies in some leaf quadrant exactly when it
lies in the rectangle 0 <= y < H, 0 <= x < W, and distinct leaves in
the returned list never share a pixel. -/
theorem qtree_leaves_tile (image : ℕ → ℕ → ℕ) (width height : ℕ)
    (hW : 1 ≤ width) (hH : 1 ≤ height) :
    (∀ y x, (∃ b ∈ get_leafnode (qtree_decompose image width height), quadMem b.quad y x) ↔
      (y < height ∧ x < width)) ∧
    List.Pairwise blobDisjoint (get_leafnode (qtree_decompose image width height)) := by
  constructor
  · intro y x
    constructor
    · rintro ⟨b, hb, hbm⟩
      have := get_leafnode_subset image _ ⟨0, 0, height, width⟩ rfl b hb y x hbm
      simp only [quadMem] at this
      exact ⟨by omega, by omega⟩
    · rintro ⟨hy, hx⟩
      exact get_leafnode_cover image _ ⟨0, 0, height, width⟩ rfl y x
        (by simp only [quadMem]; omega)
  · exact get_leafnode_pairwise image _ ⟨0, 0, height, width⟩ rfl

/-- Witness for C7 on the uniform 1-by-1 image. -/
theorem qtree_leaves_tile_witness :
    (∀ y x, (∃ b ∈ get_leafnode (qtree_decompose (fun _ _ => 0) 1 1), quadMem b.quad y x) ↔
      (y < 1 ∧ x < 1)) ∧
    List.Pairwise blobDisjoint (get_leafnode (qtree_decompose (fun _ _ => 0) 1 1)) :=
  qtree_leaves_tile (fun _ _ => 0) 1 1 (by decide) (by decide)

/-! ## CLAHE histogram pipeline (src/RDC.c)

The four histogram stages called by CLAHE, embedded parametrically in
the bin count exactly as the C functions are (the pipeline instantiates
nBins = 16384 and cutThresh = 4 from struct RDC).  unsigned long is
64-bit; the subtractions of ClipHist that can wrap are reduced mod
2 ^ 64 explicitly.  StretchHist performs float arithmetic on integral
data; it is embedded over the rationals (exact arithmetic), and each
counterexample below is chosen so that every float the C code would
compute is exactly representable, making the idealization lossless
there. -/

/-- Modulus of the 64-bit unsigned long arithmetic in ClipHist. -/
def U64 : ℕ := 18446744073709551616

/-- Conversion to unsigned short, as storing an int into the map table of
RearrangeHist does. -/
def u16ofInt (z : ℤ) : ℕ :=
  (z % 65536).toNat

/-- Histogram of CalHist (src/RDC.c lines 446-490, scalar path): bin b
counts the pixels of value b.  Faithful for pixel values below nBins
(larger values index out of bounds in C). -/
def CalHist (pixels : List ℕ) (nBins : ℕ) : List ℕ :=
  (List.range nBins).map (fun b => pixels.count b)

/-- Result of RearrangeHist: the dense kept-bin histogram, the map table,
nValidBins, nValidPixs and the running maxValidLevel. -/
structure RearrangeResult where
  rearHist : List ℕ
  map : List ℕ
  nValidBins : ℕ
  nValidPixs : ℕ
  maxValidLevel : ℕ
  deriving DecidableEq, Repr

/-- Main loop of RearrangeHist (src/RDC.c lines 509-520) over the bins
still to process: idx is the current bin index i, nvbs, nvps, maxlvl
the loop accumulators.  A bin below threshold stores the current nvbs
in the map; a kept bin is appended to rearHist, stores nvbs (the value
nvbs - 1 after the increment) and advances the accumulators. -/
def rearRec (thresh : ℕ) : List ℕ → ℕ → ℕ → ℕ → ℕ → RearrangeResult
  | [], _, nvbs, nvps, maxlvl => ⟨[], [], nvbs, nvps, maxlvl⟩
  | h :: t, idx, nvbs, nvps, maxlvl =>
    if h < thresh then
      let r := rearRec thresh t (idx + 1) nvbs nvps maxlvl
      { r with map := u16ofInt (nvbs : ℤ) :: r.map }
    else
      let r := rearRec thresh t (idx + 1) (nvbs + 1) (nvps + h) idx
      { r with rearHist := h :: r.rearHist, map := u16ofInt (nvbs : ℤ) :: r.map }

/-- RearrangeHist (src/RDC.c lines 495-528): the main loop over all bins
followed by the trailing overwrite map[i] = nvbs - 1 for every bin
index above maxValidLevel. -/
def RearrangeHist (hist : List ℕ) (thresh : ℕ) : RearrangeResult :=
  let r := rearRec thresh hist 0 0 0 0
  { r with map := r.map.mapIdx (fun i m =>
      if r.maxValidLevel + 1 ≤ i then u16ofInt ((r.nValidBins : ℤ) - 1) else m) }

/-- First redistribution pass of ClipHist (src/RDC.c lines 549-561) over
the bins still to process, threading nClipeds: bins above clipLevel are
cut to it; bins above upper absorb their headroom from nClipeds; the
rest gain nRedists.  The two nClipeds decrements and the bin increment
are 64-bit unsigned operations, reduced mod 2 ^ 64. -/
def clipMain (clip nRedists upper : ℕ) : List ℕ → ℕ → (List ℕ × ℕ)
  | [], nCl => ([], nCl)
  | h :: t, nCl =>
    if clip < h then
      let r := clipMain clip nRedists upper t nCl
      (clip :: r.1, r.2)
    else if upper < h then
      let r := clipMain clip nRedists upper t ((nCl + (U64 - (clip - h))) % U64)
      (clip :: r.1, r.2)
    else
      let r := clipMain clip nRedists upper t ((nCl + (U64 - nRedists)) % U64)
      ((h + nRedists) % U64 :: r.1, r.2)

/-- Inner stepping loop of the second ClipHist phase (src/RDC.c lines
570-575): j walks from i by the fixed step while bins remain and
nClipeds is nonzero, incrementing bins strictly below clipLevel.  The
conjunct 0 < step only serves termination of the embedding; every call
site passes step = max(nClipeds / nBins, 1), which is positive. -/
def clipJloop (clip step : ℕ) : ℕ → List ℕ → ℕ → (List ℕ × ℕ)
  | j, hist, nCl =>
    if hcond : j < hist.length ∧ nCl ≠ 0 ∧ 0 < step then
      let hj := hist.get ⟨j, hcond.1⟩
      if hj < clip then clipJloop clip step (j + step) (hist.set j (hj + 1)) (nCl - 1)
      else clipJloop clip step (j + step) hist nCl
    else (hist, nCl)
  termination_by j hist _ => hist.length - j
  decreasing_by
    all_goals try simp only [List.length_set]
    all_goals omega

/-- Outer loop of the second ClipHist phase (src/RDC.c lines 567-576):
i scans the bins while nClipeds is nonzero, recomputing the step for
each start position. -/
def clipIloop (clip nBins : ℕ) : ℕ → List ℕ → ℕ → (List ℕ × ℕ)
  | i, hist, nCl =>
    if i < nBins ∧ nCl ≠ 0 then
      let step := max (nCl / nBins) 1
      let r := clipJloop clip step i hist nCl
      clipIloop clip nBins (i + 1) r.1 r.2
    else (hist, nCl)
  termination_by i _ _ => nBins - i

/-- do-while of ClipHist (src/RDC.c lines 565-577): repeat the double
loop while nClipeds is nonzero and still shrinking. -/
def clipRedist (clip nBins : ℕ) (hist : List ℕ) (nCl : ℕ) : List ℕ × ℕ :=
  let r := clipIloop clip nBins 0 hist nCl
  if h : r.2 ≠ 0 ∧ r.2 < nCl then clipRedist clip nBins r.1 r.2 else r
  termination_by nCl
  decreasing_by exact h.2

/-- ClipHist (src/RDC.c lines 533-578) on the first nBins bins of the
rearranged histogram, embedded as the list of exactly those bins:
total excess above clipLevel, even redistribution with headroom
threshold upper = clipLevel - nRedists (64-bit unsigned subtraction,
which wraps when nRedists exceeds clipLevel), then the stepping
redistribution of the remainder. -/
def ClipHist (hist : List ℕ) (clip : ℕ) : List ℕ :=
  let nCl := (hist.map (fun h => h - clip)).sum
  let nRedists := nCl / hist.length
  let upper := (clip + (U64 - nRedists % U64)) % U64
  let r := clipMain clip nRedists upper hist nCl
  (clipRedist clip hist.length r.1 r.2).1

/-- Conversion of a nonnegative rational to unsigned char, as the cast in
StretchHist does; reachable values stay below 256, where the C cast is
plain truncation. -/
def u8cast (x : ℚ) : ℕ :=
  (Int.toNat ⌊x⌋) % 256

/-- Accumulating loop of StretchHist (src/RDC.c lines 589-597) with the
precomputed scale: each bin adds its count to accum and stores
Min((unsigned char)(min + scale * accum), max). -/
def stretchRec (scale : ℚ) (minv maxv : ℕ) : List ℕ → ℕ → List ℕ
  | [], _ => []
  | h :: t, accum =>
    min (u8cast ((minv : ℚ) + scale * ((accum + h : ℕ) : ℚ))) maxv ::
      stretchRec scale minv maxv t (accum + h)

/-- StretchHist (src/RDC.c lines 583-598): scale = (max - min) / nPixels,
float division idealized as exact rational arithmetic. -/
def StretchHist (hist : List ℕ) (minv maxv nPixels : ℕ) : List ℕ :=
  stretchRec (((maxv : ℚ) - (minv : ℚ)) / (nPixels : ℚ)) minv maxv hist 0

/-- Intermediate and final tables of one CLAHE invocation. -/
structure ClaheResult where
  rear : RearrangeResult
  clipLevel : ℕ
  clipped : List ℕ
  stretch : List ℕ
  deriving DecidableEq, Repr

/-- Histogram stages of CLAHE (src/RDC.c lines 603-707): CalHist,
RearrangeHist with cutThresh, clipLevel = clipLimit * W * H /
nValidBins with clipLimit = 1.0 (exact for the pipeline image sizes,
idealized as natural division), ClipHist, then StretchHist over BLACK =
0, WHITE = 255 with nPixels = W * H -- the total pixel count, not the
nValidPixs value RearrangeHist reported. -/
def CLAHE_maps (pixels : List ℕ) (width height nBins cutThresh : ℕ) : ClaheResult :=
  let hist := CalHist pixels nBins
  let r := RearrangeHist hist cutThresh
  let clipLevel := width * height / r.nValidBins
  let clipped := ClipHist r.rearHist clipLevel
  let stretch := StretchHist clipped 0 255 (width * height)
  ⟨r, clipLevel, clipped, stretch⟩

/-! ## C4: the denominator of the CLAHE stretch step -/

/-- Stretch table demanded by claim C4, built from its words: scale =
255 / valid_pixels and stretch[i] = min(255, floor(scale *
cumulative_count_up_to_i)), with valid_pixels the kept-pixel count
recorded by RearrangeHist.  This is the comparison definition for the
refutation; the code definition is StretchHist above. -/
def spec_stretch (rearHist : List ℕ) (validPixels : ℕ) : List ℕ :=
  (List.range rearHist.length).map
    (fun i => min 255 ((255 * ((rearHist.take (i + 1)).sum)) / validPixels))

/-- C4 counterexample: the 3-by-2 image [0,0,0,0,5,9] (histogram over 10
bins) keeps only bin 0 with 4 pixels, so valid_pixels = 4, but CLAHE
hands StretchHist nPixels = W * H = 6: the code rescales by 255 / 6 and
yields stretch[0] = 170, while the claim formula 255 / valid_pixels
demands 255.  Every float the C code computes here (255 / 6 = 42.5 and
42.5 * 4 = 170) is exactly representable, so the rational embedding is
lossless at this input. -/
theorem stretch_uses_total_pixels_counterexample :
    (CLAHE_maps [0, 0, 0, 0, 5, 9] 3 2 10 4).rear.nValidPixs = 4 ∧
    (CLAHE_maps [0, 0, 0, 0, 5, 9] 3 2 10 4).clipped = [4] ∧
    (CLAHE_maps [0, 0, 0, 0, 5, 9] 3 2 10 4).stretch = [170] ∧
    spec_stretch [4] 4 = [255] ∧ (170 : ℕ) ≠ 255 := by
  refine ⟨by decide, ?_, ?_, by decide, by decide⟩
  · simp +decide [CLAHE_maps, CalHist, RearrangeHist, rearRec, u16ofInt, ClipHist,
      clipMain, clipRedist, clipIloop, clipJloop, U64]
  · simp +decide [CLAHE_maps, CalHist, RearrangeHist, rearRec, u16ofInt, ClipHist,
      clipMain, clipRedist, clipIloop, clipJloop, U64, StretchHist, stretchRec, u8cast]
    norm_num
    decide

/-- Truncating float cast of the stretch value agrees with natural
division when the cumulative count stays within nPixels. -/
theorem u8cast_scale (nP a : ℕ) (hnp : 0 < nP) (ha : a ≤ nP) :
    u8cast ((((0 : ℕ)) : ℚ) + (255 / (nP : ℚ)) * ((a : ℕ) : ℚ)) = (255 * a) / nP := by
  have h1 : ((((0 : ℕ)) : ℚ) + (255 / (nP : ℚ)) * ((a : ℕ) : ℚ)) =
      ((255 * a : ℕ) : ℚ) / ((nP : ℕ) : ℚ) := by
    push_cast
    ring
  have hdivle : (255 * a) / nP ≤ 255 := by
    calc (255 * a) / nP ≤ (255 * nP) / nP := Nat.div_le_div_right (by omega)
    _ = 255 := Nat.mul_div_cancel 255 hnp
  rw [u8cast, h1, Int.floor_toNat, Nat.floor_div_nat, Nat.floor_natCast,
    Nat.mod_eq_of_lt (by omega)]

/-- Closed form of the StretchHist accumulation loop: entry i holds
min(255, floor(255 * cumulative / nPixels)) where cumulative counts the
bins up to i together with the accumulator carried in. -/
theorem stretchRec_get? (nP : ℕ) (hnp : 0 < nP) :
    ∀ (hist : List ℕ) (accum : ℕ), accum + hist.sum ≤ nP →
    ∀ i, i < hist.length →
    (stretchRec ((255 : ℚ) / (nP : ℚ)) 0 255 hist accum).get? i =
      some (min 255 ((255 * (accum + (hist.take (i + 1)).sum)) / nP)) := by
  intro hist
  induction hist with
  | nil =>
    intro accum hle i hi
    simp at hi
  | cons h t ih =>
    intro accum hle i hi
    cases i with
    | zero =>
      simp only [stretchRec, List.take, List.sum_cons, List.get?]
      rw [u8cast_scale nP (accum + h) hnp (by simp [List.sum_cons] at hle; omega)]
      rw [Nat.min_comm]
      norm_num
    | succ j =>
      simp only [stretchRec, List.get?]
      rw [ih (accum + h) (by simp [List.sum_cons] at hle; omega) j (by simpa using hi)]
      congr 3
      simp only [List.take, List.sum_cons]
      omega

/-- C4 amended: in the CLAHE stretch step, for every index i below
valid_bins, stretch[i] = min(255, floor((255 / (W * H)) *
cumulative_count_up_to_i)) -- the denominator is the nPixels = W * H
argument CLAHE passes (src/RDC.c lines 653-658), not the nValidPixs
value RearrangeHist reported.  The histogram handed over sums to at
most W * H, which keeps the unsigned char cast in range; float division
is idealized as exact rational arithmetic. -/
theorem StretchHist_total_pixels_formula (hist : List ℕ) (nPixels : ℕ)
    (hnp : 0 < nPixels) (hsum : hist.sum ≤ nPixels) (i : ℕ) (hi : i < hist.length) :
    (StretchHist hist 0 255 nPixels).get? i =
      some (min 255 ((255 * (hist.take (i + 1)).sum) / nPixels)) := by
  have hs : (((255 : ℕ) : ℚ) - ((0 : ℕ) : ℚ)) / ((nPixels : ℕ) : ℚ) =
      (255 : ℚ) / (nPixels : ℚ) := by
    norm_num
  rw [StretchHist, hs, stretchRec_get? nPixels hnp hist 0 (by omega) i hi]
  norm_num

/-- Witness for the amended C4 at the counterexample input: one kept bin
of 4 pixels out of 6 total stretches to floor(255 * 4 / 6) = 170. -/
theorem StretchHist_total_pixels_formula_witness :
    (StretchHist [4] 0 255 6).get? 0 = some (min 255 ((255 * ([4] : List ℕ).sum) / 6)) := by
  have h := StretchHist_total_pixels_formula [4] 6 (by decide) (by decide) 0 (by decide)
  simpa using h

/-! ## C5: where the cut bins of RearrangeHist alias -/

/-- Length of the map built by the main RearrangeHist loop. -/
theorem rearRec_map_length (thresh : ℕ) :
    ∀ (t : List ℕ) (idx a b c : ℕ), (rearRec thresh t idx a b c).map.length = t.length := by
  intro t
  induction t with
  | nil => intro idx a b c; rfl
  | cons h t ih =>
    intro idx a b c
    simp only [rearRec]
    by_cases hc : h < thresh
    · rw [if_pos hc]; simp [ih]
    · rw [if_neg hc]; simp [ih]

/-- The kept-bin counter after the main RearrangeHist loop. -/
theorem rearRec_nvbs (thresh : ℕ) :
    ∀ (t : List ℕ) (idx a b c : ℕ),
    (rearRec thresh t idx a b c).nValidBins = a + t.countP (fun h => decide (thresh ≤ h)) := by
  intro t
  induction t with
  | nil => intro idx a b c; simp [rearRec]
  | cons h t ih =>
    intro idx a b c
    simp only [rearRec]
    by_cases hc : h < thresh
    · rw [if_pos hc]
      simp only [List.countP_cons, decide_eq_false (by omega : ¬ thresh ≤ h)]
      simp [ih]
    · rw [if_neg hc]
      simp only [List.countP_cons, decide_eq_true (by omega : thresh ≤ h)]
      simp [ih]
      omega

/-- The maxValidLevel accumulator either keeps its carried value or ends
at idx plus the position of some kept bin. -/
theorem rearRec_maxlvl (thresh : ℕ) :
    ∀ (t : List ℕ) (idx a b c : ℕ),
    (rearRec thresh t idx a b c).maxValidLevel = c ∨
    ∃ j, j < t.length ∧ thresh ≤ t.getD j 0 ∧
      (rearRec thresh t idx a b c).maxValidLevel = idx + j := by
  intro t
  induction t with
  | nil => intro idx a b c; left; rfl
  | cons h t ih =>
    intro idx a b c
    simp only [rearRec]
    by_cases hc : h < thresh
    · rw [if_pos hc]
      rcases ih (idx + 1) a b c with heq | ⟨j, hj, hk, heq⟩
      · left; simpa using heq
      · right
        exact ⟨j + 1, by simpa using hj, by simpa using hk, by simp; omega⟩
    · rw [if_neg hc]
      rcases ih (idx + 1) (a + 1) (b + h) idx with heq | ⟨j, hj, hk, heq⟩
      · right
        refine ⟨0, by simp, by simpa using (by omega : thresh ≤ h), by simpa using heq⟩
      · right
        exact ⟨j + 1, by simpa using hj, by simpa using hk, by simp; omega⟩

/-- The maxValidLevel accumulator dominates the position of every kept
bin. -/
theorem rearRec_maxlvl_ge (thresh : ℕ) :
    ∀ (t : List ℕ) (idx a b c j : ℕ), j < t.length → thresh ≤ t.getD j 0 →
    idx + j ≤ (rearRec thresh t idx a b c).maxValidLevel := by
  intro t
  induction t with
  | nil => intro idx a b c j hj; simp at hj
  | cons h t ih =>
    intro idx a b c j hj hk
    cases j with
    | zero =>
      have hh : thresh ≤ h := by simpa using hk
      simp only [rearRec, if_neg (by omega : ¬ h < thresh)]
      rcases rearRec_maxlvl thresh t (idx + 1) (a + 1) (b + h) idx with heq | ⟨j2, _, _, heq⟩
      · simp [heq]
      · simp [heq]
        omega
    | succ j =>
      have hk2 : thresh ≤ t.getD j 0 := by simpa using hk
      have hj2 : j < t.length := by simpa using hj
      simp only [rearRec]
      by_cases hc : h < thresh
      · rw [if_pos hc]
        have := ih (idx + 1) a b c j hj2 hk2
        dsimp only
        omega
      · rw [if_neg hc]
        have := ih (idx + 1) (a + 1) (b + h) idx j hj2 hk2
        dsimp only
        omega

/-- Entry i of the map written by the main RearrangeHist loop: the carried
kept-bin count plus the kept bins strictly before i. -/
theorem rearRec_map_get? (thresh : ℕ) :
    ∀ (t : List ℕ) (idx a b c i : ℕ), i < t.length →
    (rearRec thresh t idx a b c).map.get? i =
      some (u16ofInt (((a + (t.take i).countP (fun h => decide (thresh ≤ h)) : ℕ) : ℤ))) := by
  intro t
  induction t with
  | nil => intro idx a b c i hi; simp at hi
  | cons h t ih =>
    intro idx a b c i hi
    cases i with
    | zero =>
      simp only [rearRec]
      by_cases hc : h < thresh
      · rw [if_pos hc]; simp
      · rw [if_neg hc]; simp
    | succ j =>
      simp only [rearRec]
      by_cases hc : h < thresh
      · rw [if_pos hc]
        dsimp only
        rw [List.get?_cons_succ, ih (idx + 1) a b c j (by simpa using hi)]
        simp only [List.take, List.countP_cons, decide_eq_false (by omega : ¬ thresh ≤ h)]
        norm_num
      · rw [if_neg hc]
        dsimp only
        rw [List.get?_cons_succ, ih (idx + 1) (a + 1) (b + h) idx j (by simpa using hi)]
        simp only [List.take, List.countP_cons, decide_eq_true (by omega : thresh ≤ h),
          if_true]
        congr 2
        omega

/-- Entry i of the final RearrangeHist map: the trailing overwrite value
for indices above maxValidLevel, the kept-bins-before count
otherwise. -/
theorem RearrangeHist_map_get?_spec (hist : List ℕ) (thresh i : ℕ) (hi : i < hist.length) :
    (RearrangeHist hist thresh).map.get? i =
      some (if (rearRec thresh hist 0 0 0 0).maxValidLevel + 1 ≤ i
            then u16ofInt (((rearRec thresh hist 0 0 0 0).nValidBins : ℤ) - 1)
            else u16ofInt (((hist.take i).countP (fun h => decide (thresh ≤ h)) : ℕ) : ℤ)) := by
  have hlen : i < (rearRec thresh hist 0 0 0 0).map.length := by
    rw [rearRec_map_length]
    exact hi
  have hget := rearRec_map_get? thresh hist 0 0 0 0 i hi
  rw [List.get?_eq_get hlen] at hget
  have hv := Option.some.inj hget
  simp only [RearrangeHist]
  have hlen2 : i < ((rearRec thresh hist 0 0 0 0).map.mapIdx
      (fun i2 m => if (rearRec thresh hist 0 0 0 0).maxValidLevel + 1 ≤ i2
        then u16ofInt (((rearRec thresh hist 0 0 0 0).nValidBins : ℤ) - 1) else m)).length := by
    simpa using hlen
  rw [List.get?_eq_get hlen2, List.get_mapIdx _ _ i hlen]
  rw [hv]
  norm_num

/-- C5 amended: a raw bin whose count is below the threshold maps to the
number of kept bins seen so far, so (first conjunct) whenever some kept
bin follows it, its map entry -- hence its stretched value
stretch[map[bin]] -- coincides with that of the nearest FOLLOWING kept
bin, not the preceding one; and (second conjunct) a cut bin above the
highest kept bin takes the map entry valid_bins - 1 of the last kept
bin. -/
theorem RearrangeHist_cut_bins_alias (hist : List ℕ) (thresh i : ℕ)
    (hi : i < hist.length) (hcut : hist.getD i 0 < thresh) :
    (∀ j, j < hist.length → i < j → thresh ≤ hist.getD j 0 →
      (∀ k, i < k → k < j → hist.getD k 0 < thresh) →
      (RearrangeHist hist thresh).map.get? i = (RearrangeHist hist thresh).map.get? j) ∧
    ((∃ j0, j0 < i ∧ thresh ≤ hist.getD j0 0) →
      (∀ k, i < k → k < hist.length → hist.getD k 0 < thresh) →
      (RearrangeHist hist thresh).map.get? i =
        some (u16ofInt (((RearrangeHist hist thresh).nValidBins : ℤ) - 1))) := by
  constructor
  · intro j hj hij hkept hbetween
    have hjm : j ≤ (rearRec thresh hist 0 0 0 0).maxValidLevel := by
      have := rearRec_maxlvl_ge thresh hist 0 0 0 0 j hj hkept
      omega
    rw [RearrangeHist_map_get?_spec hist thresh i hi, RearrangeHist_map_get?_spec hist thresh j hj]
    rw [if_neg (by omega), if_neg (by omega)]
    have hsplit : hist.take j = hist.take i ++ (hist.drop i).take (j - i) := by
      rw [← List.take_add]
      congr 1
      omega
    have hmid : ((hist.drop i).take (j - i)).countP (fun h => decide (thresh ≤ h)) = 0 := by
      rw [List.countP_eq_zero]
      intro aVal hmem
      obtain ⟨n, hn⟩ := List.mem_iff_get?.1 hmem
      have hnlt : n < j - i := by
        by_contra hge
        have hlenmid : ((hist.drop i).take (j - i)).length ≤ n := by
          have := List.length_take_le (j - i) (hist.drop i)
          omega
        rw [List.get?_eq_none.2 hlenmid] at hn
        exact Option.noConfusion hn
      rw [List.get?_take hnlt, List.get?_eq_getElem?, List.getElem?_drop] at hn
      have haval : hist.getD (i + n) 0 = aVal := by
        simp [List.getD_eq_getElem?_getD, hn]
      rcases Nat.eq_zero_or_pos n with hz | hpos
      · subst hz
        simp only [Nat.add_zero] at haval
        simp only [decide_eq_true_eq]
        omega
      · have := hbetween (i + n) (by omega) (by omega)
        simp only [decide_eq_true_eq]
        omega
    rw [hsplit, List.countP_append, hmid]
    norm_num
  · rintro ⟨j0, hj0i, hj0kept⟩ hall
    have hmvl : (rearRec thresh hist 0 0 0 0).maxValidLevel < i := by
      rcases rearRec_maxlvl thresh hist 0 0 0 0 with h0 | ⟨j, hjlen, hjkept, heq⟩
      · omega
      · rw [heq]
        rcases Nat.lt_trichotomy j i with hlt | heqji | hgt
        · omega
        · subst heqji
          omega
        · have := hall j hgt hjlen
          omega
    rw [RearrangeHist_map_get?_spec hist thresh i hi, if_pos (by omega)]
    rfl

/-- Witness for the amended C5: histogram [4, 2, 4] with threshold 4 -- bin
1 is cut, bin 2 is the nearest following kept bin, and their map entries
agree; bin 1 also sits below a kept bin 0, exercising the first
conjunct. -/
theorem RearrangeHist_cut_bins_alias_witness :
    (RearrangeHist [4, 2, 4] 4).map.get? 1 = (RearrangeHist [4, 2, 4] 4).map.get? 2 :=
  (RearrangeHist_cut_bins_alias [4, 2, 4] 4 1 (by decide) (by decide)).1 2
    (by decide) (by decide) (by decide) (fun k hk1 hk2 => by omega)

/-- C5 counterexample: for the 5-by-2 image [0,0,0,0,1,1,2,2,2,2] over 3
bins with cut threshold 4, bin 1 (count 2) is cut and its nearest
preceding kept bin is bin 0, but the final stretched value of bin 1 is
stretch[map[1]] = stretch[1] = 204, the value of the FOLLOWING kept bin
2, not stretch[map[0]] = 102 as the claim demands.  All floats involved
(255 / 10 = 25.5, 25.5 * 4 = 102, 25.5 * 8 = 204) are exactly
representable. -/
theorem RearrangeHist_previous_kept_counterexample :
    (CLAHE_maps [0, 0, 0, 0, 1, 1, 2, 2, 2, 2] 5 2 3 4).rear.map = [0, 1, 1] ∧
    (CalHist [0, 0, 0, 0, 1, 1, 2, 2, 2, 2] 3).getD 1 0 < 4 ∧
    4 ≤ (CalHist [0, 0, 0, 0, 1, 1, 2, 2, 2, 2] 3).getD 0 0 ∧
    (CLAHE_maps [0, 0, 0, 0, 1, 1, 2, 2, 2, 2] 5 2 3 4).stretch = [102, 204] ∧
    ¬ ((CLAHE_maps [0, 0, 0, 0, 1, 1, 2, 2, 2, 2] 5 2 3 4).stretch.getD
        ((CLAHE_maps [0, 0, 0, 0, 1, 1, 2, 2, 2, 2] 5 2 3 4).rear.map.getD 1 0) 0 =
      (CLAHE_maps [0, 0, 0, 0, 1, 1, 2, 2, 2, 2] 5 2 3 4).stretch.getD
        ((CLAHE_maps [0, 0, 0, 0, 1, 1, 2, 2, 2, 2] 5 2 3 4).rear.map.getD 0 0) 0) := by
  have hmap : (CLAHE_maps [0, 0, 0, 0, 1, 1, 2, 2, 2, 2] 5 2 3 4).rear.map = [0, 1, 1] := by
    decide
  have hstretch : (CLAHE_maps [0, 0, 0, 0, 1, 1, 2, 2, 2, 2] 5 2 3 4).stretch = [102, 204] := by
    simp +decide [CLAHE_maps, CalHist, RearrangeHist, rearRec, u16ofInt, ClipHist,
      clipMain, clipRedist, clipIloop, clipJloop, U64, StretchHist, stretchRec, u8cast]
    norm_num
    decide
  refine ⟨hmap, by decide, by decide, hstretch, ?_⟩
  rw [hmap, hstretch]
  decide

/-! ## C6: ClipHist bounds -/

/-- C6 counterexample: [100, 4] is the rearranged histogram of the raw
histogram [100, 3, 4] (threshold 4), and ClipHist on it with clip level
4 computes nClipeds = 96, nRedists = 48 and the unsigned 64-bit
subtraction upper = 4 - 48, which wraps to 2^64 - 44; bin 1 then lands
in the even-redistribution branch and is raised to 4 + 48 = 52, far
above clip_level + 1 = 5, and the total sum moves from 104 to 56, a
change of 48 > valid_bins = 2. -/
theorem ClipHist_wrap_counterexample :
    (RearrangeHist [100, 3, 4] 4).rearHist = [100, 4] ∧
    (RearrangeHist [100, 3, 4] 4).nValidBins = 2 ∧
    ClipHist [100, 4] 4 = [4, 52] ∧
    ¬ ((52 : ℕ) ≤ 4 + 1) ∧
    ([100, 4] : List ℕ).sum = 104 ∧ (ClipHist [100, 4] 4).sum = 56 ∧
    ¬ ((104 : ℕ) - 56 ≤ 2) := by
  have heval : ClipHist [100, 4] 4 = [4, 52] := by
    simp +decide [ClipHist, clipMain, clipRedist, clipIloop, clipJloop, U64]
  refine ⟨by decide, by decide, heval, by decide, by decide, ?_, by decide⟩
  rw [heval]
  decide

/-- Splitting the sum of a histogram into its clipped part and its excess
above the clip level. -/
theorem sum_min_add_sum_sub (t : List ℕ) (c : ℕ) :
    (t.map (fun h => min h c)).sum + (t.map (fun h => h - c)).sum = t.sum := by
  induction t with
  | nil => rfl
  | cons h t ih =>
    simp only [List.map_cons, List.sum_cons]
    omega

/-- Updating one element moves the sum by the difference. -/
theorem sum_set_get (l : List ℕ) (j v : ℕ) (hj : j < l.length) :
    (l.set j v).sum + l.get ⟨j, hj⟩ = l.sum + v := by
  induction l generalizing j with
  | nil => simp at hj
  | cons h t ih =>
    cases j with
    | zero => simp [List.set]; omega
    | succ j2 =>
      simp only [List.set, List.sum_cons, List.get]
      have := ih j2 (by simpa using hj)
      omega

/-- Invariant of the first ClipHist pass when upper = clipLevel -
nRedists does not wrap: the output has the same length, every bin ends
at most at the clip level, the bins-plus-counter total equals the
clipped input total plus the incoming counter, and the counter never
grows. -/
theorem clipMain_spec (clip nRedists : ℕ) (hrc : nRedists ≤ clip) (hclip : clip < U64) :
    ∀ (t : List ℕ) (nCl : ℕ), nCl < U64 → t.length * nRedists ≤ nCl →
    (clipMain clip nRedists (clip - nRedists) t nCl).1.length = t.length ∧
    (∀ x ∈ (clipMain clip nRedists (clip - nRedists) t nCl).1, x ≤ clip) ∧
    (clipMain clip nRedists (clip - nRedists) t nCl).1.sum +
      (clipMain clip nRedists (clip - nRedists) t nCl).2 =
      (t.map (fun h => min h clip)).sum + nCl ∧
    (clipMain clip nRedists (clip - nRedists) t nCl).2 ≤ nCl := by
  intro t
  induction t with
  | nil =>
    intro nCl hlt hmul
    simp [clipMain]
  | cons h t ih =>
    intro nCl hlt hmul
    simp only [List.length_cons] at hmul
    have hmul2 : t.length * nRedists + nRedists ≤ nCl := by
      have hexp : (t.length + 1) * nRedists = t.length * nRedists + nRedists := by ring
      omega
    simp only [clipMain]
    by_cases h1 : clip < h
    · rw [if_pos h1]
      obtain ⟨hlen, hbound, hsum, hmono⟩ := ih nCl hlt (by omega)
      refine ⟨by simpa using hlen, ?_, ?_, hmono⟩
      · intro x hx
        rcases List.mem_cons.1 hx with hx | hx
        · omega
        · exact hbound x hx
      · simp only [List.map_cons, List.sum_cons, List.sum_cons]
        have hm : min h clip = clip := by omega
        omega
    · rw [if_neg h1]
      by_cases h2 : clip - nRedists < h
      · rw [if_pos h2]
        have hx : clip - h < nRedists := by omega
        have hmod : (nCl + (U64 - (clip - h))) % U64 = nCl - (clip - h) := by
          simp only [U64] at hlt hclip ⊢
          omega
        rw [hmod]
        obtain ⟨hlen, hbound, hsum, hmono⟩ := ih (nCl - (clip - h)) (by omega) (by omega)
        refine ⟨by simpa using hlen, ?_, ?_, by omega⟩
        · intro x hx2
          rcases List.mem_cons.1 hx2 with hx2 | hx2
          · omega
          · exact hbound x hx2
        · simp only [List.map_cons, List.sum_cons]
          have hm : min h clip = h := by omega
          omega
      · rw [if_neg h2]
        have hmod : (nCl + (U64 - nRedists)) % U64 = nCl - nRedists := by
          simp only [U64] at hlt hclip ⊢
          omega
        have hmod2 : (h + nRedists) % U64 = h + nRedists := by
          have : h + nRedists ≤ clip := by omega
          simp only [U64] at hclip ⊢
          omega
        rw [hmod, hmod2]
        obtain ⟨hlen, hbound, hsum, hmono⟩ := ih (nCl - nRedists) (by omega) (by omega)
        refine ⟨by simpa using hlen, ?_, ?_, by omega⟩
        · intro x hx2
          rcases List.mem_cons.1 hx2 with hx2 | hx2
          · omega
          · exact hbound x hx2
        · simp only [List.map_cons, List.sum_cons]
          have hm : min h clip = h := by omega
          omega

/-- Invariant of the stepping inner loop: length is preserved, bins stay
at or below the clip level, the bins-plus-counter total is conserved,
and the counter never grows. -/
theorem clipJloop_spec (clip step : ℕ) :
    ∀ (fuel j : ℕ) (hist : List ℕ) (nCl : ℕ), hist.length - j ≤ fuel →
    (∀ x ∈ hist, x ≤ clip) →
    (clipJloop clip step j hist nCl).1.length = hist.length ∧
    (∀ x ∈ (clipJloop clip step j hist nCl).1, x ≤ clip) ∧
    (clipJloop clip step j hist nCl).1.sum + (clipJloop clip step j hist nCl).2 =
      hist.sum + nCl ∧
    (clipJloop clip step j hist nCl).2 ≤ nCl := by
  intro fuel
  induction fuel with
  | zero =>
    intro j hist nCl hfuel hb
    rw [clipJloop]
    rw [dif_neg (by omega)]
    simp
    exact hb
  | succ n ih =>
    intro j hist nCl hfuel hb
    rw [clipJloop]
    split
    case isTrue hcond =>
      dsimp only
      split
      case isTrue hlt =>
        have hset : ∀ x ∈ hist.set j (hist.get ⟨j, hcond.1⟩ + 1), x ≤ clip := by
          intro x hx
          rcases List.mem_or_eq_of_mem_set hx with hx | hx
          · exact hb x hx
          · omega
        have hsum : (hist.set j (hist.get ⟨j, hcond.1⟩ + 1)).sum = hist.sum + 1 := by
          have := sum_set_get hist j (hist.get ⟨j, hcond.1⟩ + 1) hcond.1
          omega
        obtain ⟨hlen, hbound, hs, hmono⟩ := ih (j + step) (hist.set j _) (nCl - 1)
          (by simp only [List.length_set]; omega) hset
        refine ⟨by simp only [List.length_set] at hlen; omega, hbound, ?_, by omega⟩
        rw [hs, hsum]
        have : nCl ≠ 0 := hcond.2.1
        omega
      case isFalse hlt =>
        exact ih (j + step) hist nCl (by omega) hb
    case isFalse hcond =>
      simp
      exact hb

/-- The stepping inner loop never increases the counter. -/
theorem clipJloop_mono (clip step : ℕ) :
    ∀ (fuel j : ℕ) (hist : List ℕ) (nCl : ℕ), hist.length - j ≤ fuel →
    (clipJloop clip step j hist nCl).2 ≤ nCl := by
  intro fuel
  induction fuel with
  | zero =>
    intro j hist nCl hfuel
    rw [clipJloop, dif_neg (by omega)]
  | succ n ih =>
    intro j hist nCl hfuel
    rw [clipJloop]
    split
    case isTrue hcond =>
      dsimp only
      split
      case isTrue hlt =>
        have := ih (j + step) (hist.set j (hist.get ⟨j, hcond.1⟩ + 1)) (nCl - 1)
          (by simp only [List.length_set]; omega)
        omega
      case isFalse hlt =>
        exact ih (j + step) hist nCl (by omega)
    case isFalse hcond =>
      exact le_refl nCl

/-- If the stepping inner loop returns with its counter unchanged it also
leaves the histogram unchanged. -/
theorem clipJloop_frame (clip step : ℕ) :
    ∀ (fuel j : ℕ) (hist : List ℕ) (nCl : ℕ), hist.length - j ≤ fuel →
    (clipJloop clip step j hist nCl).2 = nCl →
    (clipJloop clip step j hist nCl).1 = hist := by
  intro fuel
  induction fuel with
  | zero =>
    intro j hist nCl hfuel heq
    rw [clipJloop]
    rw [dif_neg (by omega)]
  | succ n ih =>
    intro j hist nCl hfuel heq
    rw [clipJloop] at heq ⊢
    split at heq
    case isTrue hcond =>
      dsimp only at heq ⊢
      split at heq
      case isTrue hlt =>
        exfalso
        have hmono := clipJloop_mono clip step n (j + step)
          (hist.set j (hist.get ⟨j, hcond.1⟩ + 1)) (nCl - 1)
          (by simp only [List.length_set]; omega)
        have hne : nCl ≠ 0 := hcond.2.1
        omega
      case isFalse hlt =>
        rw [dif_pos hcond]
        rw [if_neg hlt]
        exact ih (j + step) hist nCl (by omega) heq
    case isFalse hcond =>
      rw [dif_neg hcond]

/-- Probing a bin strictly below the clip level strictly decreases the
counter. -/
theorem clipJloop_probe (clip step j : ℕ) (hist : List ℕ) (nCl : ℕ)
    (hj : j < hist.length) (hn : nCl ≠ 0) (hs : 0 < step)
    (hlt : hist.get ⟨j, hj⟩ < clip) :
    (clipJloop clip step j hist nCl).2 < nCl := by
  rw [clipJloop, dif_pos ⟨hj, hn, hs⟩]
  dsimp only
  rw [if_pos hlt]
  have := clipJloop_mono clip step ((hist.set j (hist.get ⟨j, hj⟩ + 1)).length) (j + step)
    (hist.set j (hist.get ⟨j, hj⟩ + 1)) (nCl - 1) (by omega)
  omega

/-- The outer redistribution loop never increases the counter. -/
theorem clipIloop_mono (clip nBins : ℕ) :
    ∀ (fuel i : ℕ) (hist : List ℕ) (nCl : ℕ), nBins - i ≤ fuel →
    (clipIloop clip nBins i hist nCl).2 ≤ nCl := by
  intro fuel
  induction fuel with
  | zero =>
    intro i hist nCl hfuel
    rw [clipIloop, if_neg (by omega)]
  | succ n ih =>
    intro i hist nCl hfuel
    rw [clipIloop]
    split
    case isTrue hcond =>
      dsimp only
      have hj := clipJloop_mono clip (max (nCl / nBins) 1) hist.length i hist nCl (by omega)
      have hrec := ih (i + 1)
        (clipJloop clip (max (nCl / nBins) 1) i hist nCl).1
        (clipJloop clip (max (nCl / nBins) 1) i hist nCl).2 (by omega)
      omega
    case isFalse hcond =>
      exact le_refl nCl

/-- Invariant of the outer redistribution loop. -/
theorem clipIloop_spec (clip nBins : ℕ) :
    ∀ (fuel i : ℕ) (hist : List ℕ) (nCl : ℕ), nBins - i ≤ fuel →
    (∀ x ∈ hist, x ≤ clip) →
    (clipIloop clip nBins i hist nCl).1.length = hist.length ∧
    (∀ x ∈ (clipIloop clip nBins i hist nCl).1, x ≤ clip) ∧
    (clipIloop clip nBins i hist nCl).1.sum + (clipIloop clip nBins i hist nCl).2 =
      hist.sum + nCl := by
  intro fuel
  induction fuel with
  | zero =>
    intro i hist nCl hfuel hb
    rw [clipIloop, if_neg (by omega)]
    exact ⟨rfl, hb, rfl⟩
  | succ n ih =>
    intro i hist nCl hfuel hb
    rw [clipIloop]
    split
    case isTrue hcond =>
      dsimp only
      obtain ⟨hlen1, hb1, hsum1, _⟩ := clipJloop_spec clip (max (nCl / nBins) 1)
        hist.length i hist nCl (by omega) hb
      obtain ⟨hlen2, hb2, hsum2⟩ := ih (i + 1)
        (clipJloop clip (max (nCl / nBins) 1) i hist nCl).1
        (clipJloop clip (max (nCl / nBins) 1) i hist nCl).2 (by omega) hb1
      exact ⟨by omega, hb2, by omega⟩
    case isFalse hcond =>
      exact ⟨rfl, hb, rfl⟩

/-- A full pass of the outer loop that leaves a nonzero counter unchanged
leaves the histogram unchanged and certifies that every bin from the
start position on (within the nBins range) already sits at or above the
clip level. -/
theorem clipIloop_stuck (clip nBins : ℕ) :
    ∀ (fuel i : ℕ) (hist : List ℕ) (nCl : ℕ), nBins - i ≤ fuel → nCl ≠ 0 →
    (clipIloop clip nBins i hist nCl).2 = nCl →
    (clipIloop clip nBins i hist nCl).1 = hist ∧
    (∀ k (hk : k < hist.length), i ≤ k → k < nBins → ¬ (hist.get ⟨k, hk⟩ < clip)) := by
  intro fuel
  induction fuel with
  | zero =>
    intro i hist nCl hfuel hn heq
    rw [clipIloop, if_neg (by omega)]
    exact ⟨rfl, fun k hk hik hkb => by omega⟩
  | succ n ih =>
    intro i hist nCl hfuel hn heq
    rw [clipIloop] at heq ⊢
    by_cases hcond : i < nBins ∧ nCl ≠ 0
    · rw [if_pos hcond] at heq ⊢
      dsimp only at heq ⊢
      have hjm := clipJloop_mono clip (max (nCl / nBins) 1) hist.length i hist nCl (by omega)
      have him := clipIloop_mono clip nBins n (i + 1)
        (clipJloop clip (max (nCl / nBins) 1) i hist nCl).1
        (clipJloop clip (max (nCl / nBins) 1) i hist nCl).2 (by omega)
      have hj_eq : (clipJloop clip (max (nCl / nBins) 1) i hist nCl).2 = nCl := by omega
      have hframe := clipJloop_frame clip (max (nCl / nBins) 1) hist.length i hist nCl
        (by omega) hj_eq
      rw [hframe, hj_eq] at heq ⊢
      obtain ⟨hrec1, hrec2⟩ := ih (i + 1) hist nCl (by omega) hn heq
      refine ⟨hrec1, ?_⟩
      intro k hk hik hkb
      rcases Nat.eq_or_lt_of_le hik with hik2 | hik2
      · subst hik2
        intro hklt
        have := clipJloop_probe clip (max (nCl / nBins) 1) i hist nCl hk hn (by omega) hklt
        omega
      · exact hrec2 k hk hik2 hkb
    · rw [if_neg hcond]
      refine ⟨rfl, fun k hk hik hkb => ?_⟩
      exfalso
      exact hcond ⟨by omega, hn⟩

/-- Invariant and exit analysis of the ClipHist do-while: length, the
clip-level bound and the bins-plus-counter total are preserved, and on
exit either the counter has drained to zero or every bin sits exactly
at the clip level. -/
theorem clipRedist_spec (clip nBins : ℕ) :
    ∀ (nCl : ℕ) (hist : List ℕ), nBins = hist.length → (∀ x ∈ hist, x ≤ clip) →
    (clipRedist clip nBins hist nCl).1.length = hist.length ∧
    (∀ x ∈ (clipRedist clip nBins hist nCl).1, x ≤ clip) ∧
    (clipRedist clip nBins hist nCl).1.sum + (clipRedist clip nBins hist nCl).2 =
      hist.sum + nCl ∧
    ((clipRedist clip nBins hist nCl).2 = 0 ∨
      ∀ x ∈ (clipRedist clip nBins hist nCl).1, x = clip) := by
  intro nCl
  induction nCl using Nat.strong_induction_on with
  | _ nCl ih =>
    intro hist hnb hb
    rw [clipRedist]
    obtain ⟨hl1, hb1, hs1⟩ := clipIloop_spec clip nBins nBins 0 hist nCl (by omega) hb
    by_cases hcond : (clipIloop clip nBins 0 hist nCl).2 ≠ 0 ∧
        (clipIloop clip nBins 0 hist nCl).2 < nCl
    · rw [dif_pos hcond]
      obtain ⟨hl2, hb2, hs2, hexit⟩ := ih (clipIloop clip nBins 0 hist nCl).2 hcond.2
        (clipIloop clip nBins 0 hist nCl).1 (by omega) hb1
      exact ⟨by omega, hb2, by omega, hexit⟩
    · rw [dif_neg hcond]
      refine ⟨hl1, hb1, hs1, ?_⟩
      rcases Nat.eq_zero_or_pos (clipIloop clip nBins 0 hist nCl).2 with hz | hpos
      · exact Or.inl hz
      · right
        have hmono := clipIloop_mono clip nBins nBins 0 hist nCl (by omega)
        have hnlt : ¬ (clipIloop clip nBins 0 hist nCl).2 < nCl := fun hlt =>
          hcond ⟨by omega, hlt⟩
        have hneq : (clipIloop clip nBins 0 hist nCl).2 = nCl := by omega
        have hnn : nCl ≠ 0 := by omega
        obtain ⟨hfix, hge⟩ := clipIloop_stuck clip nBins nBins 0 hist nCl (by omega) hnn hneq
        rw [hfix]
        intro x hx
        obtain ⟨⟨k, hklen⟩, hkx⟩ := List.mem_iff_get.1 hx
        have hgek := hge k hklen (Nat.zero_le k) (by omega)
        have hxle := hb x hx
        omega

/-- C6 amended: for every rearranged histogram with at least one bin and
every clip level satisfying sum rear_hist < valid_bins * (clip_level +
1) -- as the pipeline guarantees, since clip_level = floor(W * H /
valid_bins) and the histogram sums to at most W * H -- ClipHist leaves
no bin above clip_level + 1 (indeed none above clip_level) and moves
the total sum by at most valid_bins.  The machine-width hypotheses just
say the unsigned long inputs are representable. -/
theorem ClipHist_bounds (hist : List ℕ) (clip : ℕ)
    (hne : hist ≠ []) (hclip : clip < U64) (hsumU : hist.sum < U64)
    (hsum : hist.sum < hist.length * (clip + 1)) :
    (∀ x ∈ ClipHist hist clip, x ≤ clip + 1) ∧
    (ClipHist hist clip).sum ≤ hist.sum ∧
    hist.sum - (ClipHist hist clip).sum ≤ hist.length := by
  have hL : 0 < hist.length := List.length_pos.2 hne
  have hminsum := sum_min_add_sum_sub hist clip
  have hcl0 : (hist.map (fun h => h - clip)).sum ≤ hist.sum := by omega
  have hcomm : hist.length * (clip + 1) = (clip + 1) * hist.length := Nat.mul_comm _ _
  have hred : (hist.map (fun h => h - clip)).sum / hist.length ≤ clip := by
    have hdiv := (Nat.div_lt_iff_lt_mul hL).2
      (show (hist.map (fun h => h - clip)).sum < (clip + 1) * hist.length by omega)
    omega
  have hqlt : (hist.map (fun h => h - clip)).sum / hist.length < U64 := by
    simp only [U64] at hclip ⊢
    omega
  have hupper : (clip + (U64 - ((hist.map (fun h => h - clip)).sum / hist.length) % U64)) % U64 =
      clip - (hist.map (fun h => h - clip)).sum / hist.length := by
    rw [Nat.mod_eq_of_lt hqlt]
    have hred2 := hred
    generalize hqg : (hist.map (fun h => h - clip)).sum / hist.length = q at hred2 ⊢
    simp only [U64] at hclip ⊢
    omega
  have hmulle : hist.length * ((hist.map (fun h => h - clip)).sum / hist.length) ≤
      (hist.map (fun h => h - clip)).sum := by
    have h1 := Nat.div_mul_le_self (hist.map (fun h => h - clip)).sum hist.length
    have h2 : hist.length * ((hist.map (fun h => h - clip)).sum / hist.length) =
        ((hist.map (fun h => h - clip)).sum / hist.length) * hist.length := Nat.mul_comm _ _
    omega
  obtain ⟨hlen1, hb1, hsum1, hmono1⟩ := clipMain_spec clip
    ((hist.map (fun h => h - clip)).sum / hist.length) hred hclip hist
    (hist.map (fun h => h - clip)).sum (by omega) hmulle
  simp only [ClipHist]
  rw [hupper]
  obtain ⟨hlen2, hb2, hsum2, hexit⟩ := clipRedist_spec clip hist.length
    (clipMain clip ((hist.map (fun h => h - clip)).sum / hist.length)
      (clip - (hist.map (fun h => h - clip)).sum / hist.length) hist
      (hist.map (fun h => h - clip)).sum).2
    (clipMain clip ((hist.map (fun h => h - clip)).sum / hist.length)
      (clip - (hist.map (fun h => h - clip)).sum / hist.length) hist
      (hist.map (fun h => h - clip)).sum).1
    hlen1.symm hb1
  refine ⟨fun x hx => by have := hb2 x hx; omega, by omega, ?_⟩
  rcases hexit with hz | hconst
  · omega
  · have hsum3 : (clipRedist clip hist.length
        (clipMain clip ((hist.map (fun h => h - clip)).sum / hist.length)
          (clip - (hist.map (fun h => h - clip)).sum / hist.length) hist
          (hist.map (fun h => h - clip)).sum).1
        (clipMain clip ((hist.map (fun h => h - clip)).sum / hist.length)
          (clip - (hist.map (fun h => h - clip)).sum / hist.length) hist
          (hist.map (fun h => h - clip)).sum).2).1.sum =
      hist.length * clip := by
      rw [List.sum_eq_card_nsmul _ clip hconst]
      simp only [smul_eq_mul]
      rw [hlen2, hlen1]
    have hexp : hist.length * (clip + 1) = hist.length * clip + hist.length := by ring
    omega

/-- Witness for the amended C6: the rearranged histogram [4, 4] with clip
level 5 (pipeline value floor(10 / 2)). -/
theorem ClipHist_bounds_witness :
    (ClipHist [4, 4] 5).sum ≤ ([4, 4] : List ℕ).sum ∧
    ([4, 4] : List ℕ).sum - (ClipHist [4, 4] 5).sum ≤ ([4, 4] : List ℕ).length :=
  ⟨(ClipHist_bounds [4, 4] 5 (by decide) (by decide) (by decide) (by decide)).2.1,
   (ClipHist_bounds [4, 4] 5 (by decide) (by decide) (by decide) (by decide)).2.2⟩

/-! ## C8: the convolution loop of gauss_filter_nsu (src/gaussfilter.c)

gauss_filter (scalar path, src/gaussfilter.c lines 135-138) calls
gauss_filter_nsu with ksize = 5.  Its interior convolution (lines
734-745) runs, per output pixel:

  i = 0;
  sum = 0;
  for (ky = y - krad; ky <= y + krad; ky++)
      for (kx = x - krad; kx <= x + krad; kx++)
          sum += image[ky * width + kx] * kernel[i];
  gf_image[y * width + x] = (unsigned int)(sum);

The index i is initialized once and never incremented, so every tap is
weighted by kernel[0], the corner coefficient.  The kernel table itself
is filled with expf values and normalized (lines 717-732); it is
embedded as an abstract coefficient function, and the float
accumulation over 8-bit pixel values is idealized as exact rational
arithmetic -- the indexing defect shown here is independent of
rounding. -/

/-- Window accumulation of gauss_filter_nsu at interior pixel (x, y) with
kernel radius krad: the pair state carries the kernel index i (written
exactly as the source leaves it: never incremented) and the running
sum. -/
def gauss_window_sum (kernel : ℕ → ℚ) (image : ℕ → ℕ → ℕ) (x y krad : ℕ) : ℚ :=
  ((List.range (2 * krad + 1)).foldl (fun acc dy =>
    (List.range (2 * krad + 1)).foldl (fun acc2 dx =>
      (acc2.1, acc2.2 + (image (y - krad + dy) (x - krad + dx) : ℚ) * kernel acc2.1)) acc)
    ((0 : ℕ), (0 : ℚ))).2

/-- Convolution demanded by claim C8, built from its words: each window
tap (dy, dx) is weighted by its own kernel coefficient
kernel[dy * ksize + dx].  Comparison definition for the refutation. -/
def spec_gauss_window_sum (kernel : ℕ → ℚ) (image : ℕ → ℕ → ℕ)
    (x y krad ksize : ℕ) : ℚ :=
  ((List.range (2 * krad + 1)).foldl (fun acc dy =>
    (List.range (2 * krad + 1)).foldl (fun acc2 dx =>
      (acc2.2 + (image (y - krad + dy) (x - krad + dx) : ℚ) *
        kernel (dy * ksize + dx), acc2.1)) acc)
    ((0 : ℚ), (0 : ℕ))).1

/-- Unit impulse test image: 255 at pixel (2, 2), 0 elsewhere. -/
def impulse5 : ℕ → ℕ → ℕ :=
  fun y x => if y = 2 ∧ x = 2 then 255 else 0

/-- C8: at the center pixel of the impulse image the code weights the
whole window by kernel[0] (the corner coefficient), while the claimed
Gaussian convolution weights the impulse by the center coefficient
kernel[12]; for the actual ksize = 5, sigma = 4.5 kernel these differ
(kernel[0] = exp(-8 / 40.5) / S and kernel[12] = 1 / S with S the
normalization sum), so the outputs disagree whenever kernel 0 is not
kernel 12. -/
theorem gauss_filter_nsu_kernel_index_bug (kernel : ℕ → ℚ) :
    gauss_window_sum kernel impulse5 2 2 2 = kernel 0 * 255 ∧
    spec_gauss_window_sum kernel impulse5 2 2 2 5 = kernel 12 * 255 := by
  constructor
  · simp [gauss_window_sum, impulse5, List.range_succ]
    ring
  · simp [spec_gauss_window_sum, impulse5, List.range_succ]
    ring

end ImageFusion
